import Mathlib

/-!
Verification of the `plain-ds` singly-linked list family.

The development shallowly embeds the Rust sources:
* `src/core/error.rs`              → `DSError`
* `src/core/node_one_link/merge_sort.rs` → `merge`, `split_list`, `merge_sort`
* `src/list/common.rs`             → `ListCommon` state and engine operations
* `src/list/api.rs`                → `get`, `get_mut`, `insert` bounds checks, `clear`, `find`
* `src/list/singly_linked.rs`      → `SinglyLinkedList` operations (`push_front`, `insert`, `sort`)
* `src/list/ordered.rs`            → `OrderedList.push` (linear-scan sorted insertion)
* `src/list/sorted.rs`             → `SortedList.push` (fast-path sorted insertion), `SortedList.find`

A list state is modelled by the values reachable from the head pointer
(`chain`), the payload the tail pointer refers to (`lastP`, `none` when the
tail pointer is null), and the `size` counter — the three fields of the Rust
`ListCommon` struct.  Comparisons are passed as Boolean functions, matching
Rust's `PartialOrd` operators.
-/

namespace PlainDS

/-- Error enum from `src/core/error.rs`: the single error kind,
carrying the offending index and the list length at call time. -/
inductive DSError where
  | IndexOutOfBounds (index : Nat) (len : Nat)
deriving DecidableEq, Repr

/-- The merge step of `src/core/node_one_link/merge_sort.rs` (`merge`):
while both chains are non-empty, relink the node whose front payload
satisfies `left <= right` (ties take the left node), then append the
remainder.  The dummy placeholder node of the source is a construction
device only and does not appear in the returned chain. -/
def merge {α : Type} (le : α → α → Bool) : List α → List α → List α
  | [], bs => bs
  | as, [] => as
  | a :: as, b :: bs =>
    if le a b then a :: merge le as (b :: bs)
    else b :: merge le (a :: as) bs
termination_by as bs => as.length + bs.length

/-- The slow/fast pointer walk of `split_list`: `slow` starts at the head,
`fast` at its successor; each iteration advances `fast` once and, if it is
still non-null, advances `slow` and `fast` once more.  The function returns
the final index of `slow`, given the list of nodes after the head (`fast`'s
initial chain) and the current slow index. -/
def split_steps {α : Type} : List α → Nat → Nat
  | [], slow => slow
  | [_], slow => slow
  | _ :: _ :: rest, slow => split_steps rest (slow + 1)

/-- `split_list` of `src/core/node_one_link/merge_sort.rs`: after the
slow/fast walk, the right half starts at `slow.next` and the left half is
truncated at `slow`.  With `slow` ending at index `split_steps l.tail 0`,
the chain splits after `split_steps l.tail 0 + 1` nodes. -/
def split_list {α : Type} (l : List α) : List α × List α :=
  let k := split_steps l.tail 0 + 1
  (l.take k, l.drop k)

/-- `merge_sort` of `src/core/node_one_link/merge_sort.rs`: an empty or
single-node chain is returned unchanged; otherwise split into two halves,
sort each recursively, and merge. -/
def merge_sort {α : Type} (le : α → α → Bool) : List α → List α
  | [] => []
  | [a] => [a]
  | a :: b :: rest =>
    merge le (merge_sort le (split_list (a :: b :: rest)).1)
             (merge_sort le (split_list (a :: b :: rest)).2)
termination_by l => l.length
decreasing_by
  all_goals
    have key : ∀ (n : Nat) (f : List α) (s : Nat), f.length ≤ n →
        split_steps f s ≤ s + f.length / 2 := by
      intro n
      induction n with
      | zero =>
        intro f s hf
        cases f with
        | nil => simp [split_steps]
        | cons x xs => simp at hf
      | succ n ih =>
        intro f s hf
        cases f with
        | nil => simp [split_steps]
        | cons x xs =>
          cases xs with
          | nil => simp [split_steps]
          | cons y rest2 =>
            have hr := ih rest2 (s + 1) (by simp at hf ⊢; omega)
            simp only [split_steps, List.length_cons]
            omega
    have hb := key (b :: rest).length (b :: rest) 0 (Nat.le_refl _)
    simp only [List.length_cons] at hb
    simp only [split_list, List.tail_cons, List.length_take, List.length_drop,
      List.length_cons]
    omega

/-- Key-only ordering on pairs: the comparison the merge sort sees when the
element type compares by a key and carries extra data (ties possible). -/
def leK (p q : Int × Int) : Bool := decide (p.1 ≤ q.1)

/-- Strict key comparison on pairs, matching a `PartialOrd` that compares
only the key component (`p < q ⇔ p.key < q.key`). -/
def ltK (p q : Int × Int) : Bool := decide (p.1 < q.1)

/-- State of `ListCommon` (`src/list/common.rs`), projected to values:
`chain` is the payload sequence of the nodes reachable from the `head`
pointer, `lastP` the payload of the node the `last` pointer refers to
(`none` when `last` is null), and `size` the stored size counter. -/
structure ListCommon (α : Type) where
  chain : List α
  lastP : Option α
  size : Nat
deriving Repr

namespace ListCommon

variable {α : Type}

/-- `ListCommon::new`: both pointers null, size zero. -/
def new : ListCommon α := ⟨[], none, 0⟩

/-- `len()`: returns the stored `size` field. -/
def len (st : ListCommon α) : Nat := st.size

/-- `is_empty()` (default method of the `List` trait in `src/list/api.rs`):
`len() == 0`. -/
def is_empty (st : ListCommon α) : Bool := st.len == 0

/-- `head()`: `None` when the head pointer is null, otherwise the payload of
the first node — the first element of `chain`. -/
def head (st : ListCommon α) : Option α := st.chain.head?

/-- `last()`: `None` when the last pointer is null, otherwise its payload. -/
def last (st : ListCommon α) : Option α := st.lastP

/-- `to_vec()`: collects `iter().cloned()` into a vector, i.e. the payloads
in chain order; the source list is not touched. -/
def to_vec (st : ListCommon α) : List α := st.chain

/-- `push_back(payload)`: allocate a node; if the list is empty set `head`
to it, else link it after the `last` node (the final chain node under the
engine invariant); update `last` and increment `size`. -/
def push_back (st : ListCommon α) (x : α) : ListCommon α :=
  ⟨st.chain ++ [x], some x, st.size + 1⟩

/-- `pop_back()`: `None` when `len() == 0`; with a single node (head == last)
clear both pointers; otherwise walk from head to the penultimate node,
truncate the chain there and free the old last node, returning its payload.
`size` is decremented. -/
def pop_back (st : ListCommon α) : Option α × ListCommon α :=
  if st.size = 0 then (none, st)
  else
    match st.chain with
    | [] => (none, st) -- unreachable: size ≠ 0 with a null head dereferences null in the source
    | [x] => (some x, ⟨[], none, st.size - 1⟩)
    | x :: y :: t =>
      let c := (x :: y :: t).dropLast
      ((x :: y :: t).getLast?, ⟨c, c.getLast?, st.size - 1⟩)

/-- `pop_front()`: `None` when `len() == 0`; otherwise free the head node,
advance `head` to its successor, clear `last` too when `len()` was 1, and
decrement `size`. -/
def pop_front (st : ListCommon α) : Option α × ListCommon α :=
  if st.size = 0 then (none, st)
  else
    match st.chain with
    | [] => (none, st) -- unreachable: size ≠ 0 with a null head dereferences null in the source
    | h :: t => (some h, ⟨t, if st.size = 1 then none else st.lastP, st.size - 1⟩)

/-- `remove(index)` of `ListCommon`: bounds check at entry returning
`IndexOutOfBounds{index, len}` for `index >= size` without mutating;
`index == 0` delegates to `pop_front`, `index + 1 == size` to `pop_back`;
otherwise walk to the node before `index`, unlink the target and return its
payload.  The `unwrap()` on the delegated pops cannot fail under the engine
invariant; an impossible `None` is mapped to the same error value here. -/
def remove (st : ListCommon α) (index : Nat) : Except DSError α × ListCommon α :=
  if index ≥ st.size then (.error (.IndexOutOfBounds index st.size), st)
  else if index = 0 then
    match pop_front st with
    | (some v, st') => (.ok v, st')
    | (none, st') => (.error (.IndexOutOfBounds index st.size), st') -- unreachable unwrap panic
  else if index + 1 = st.size then
    match pop_back st with
    | (some v, st') => (.ok v, st')
    | (none, st') => (.error (.IndexOutOfBounds index st.size), st') -- unreachable unwrap panic
  else
    match st.chain.get? index with
    | some v => (.ok v, ⟨st.chain.eraseIdx index, st.lastP, st.size - 1⟩)
    | none => (.error (.IndexOutOfBounds index st.size), st) -- unreachable null dereference

/-- `get(index)` (default method in `src/list/api.rs`): `iter().nth(index)`,
or `IndexOutOfBounds{index, len}` when the iterator is exhausted first. -/
def get (st : ListCommon α) (index : Nat) : Except DSError α :=
  match st.chain.get? index with
  | some v => .ok v
  | none => .error (.IndexOutOfBounds index st.size)

/-- `get_mut(index)` (default method in `src/list/api.rs`):
`iter_mut().nth(index)` over the same chain, with the length captured
before the traversal; the returned reference is modelled by its payload. -/
def get_mut (st : ListCommon α) (index : Nat) : Except DSError α :=
  match st.chain.get? index with
  | some v => .ok v
  | none => .error (.IndexOutOfBounds index st.size)

/-- One iteration bound for the `clear()` loop (`while len() != 0 { pop_front }`);
under the engine invariant `size` iterations drain the list. -/
def clearLoop : Nat → ListCommon α → ListCommon α
  | 0, st => st
  | n + 1, st => if st.size = 0 then st else clearLoop n (pop_front st).2

/-- `clear()` (default method in `src/list/api.rs`): pop_front until empty. -/
def clear (st : ListCommon α) : ListCommon α := clearLoop st.size st

/-- `find(value)` (default method in `src/list/api.rs`): enumerate `iter()`
and return the first index whose payload equals `value`. -/
def find_plain [DecidableEq α] (v : α) : List α → Nat → Option Nat
  | [], _ => none
  | h :: t, i => if h = v then some i else find_plain v t (i + 1)

/-- Engine invariant (§3 of the spec): the size counter equals the chain
length and the tail pointer refers to the final chain node. -/
def WF (st : ListCommon α) : Prop :=
  st.size = st.chain.length ∧ st.lastP = st.chain.getLast?

end ListCommon

namespace SinglyLinkedList

variable {α : Type}

open ListCommon

/-- `SinglyLinkedList::push_front` (`src/list/singly_linked.rs`): allocate a
node; when empty, set `last` to it (its successor stays null), else point
its successor at the old head; update `head`, increment `size`. -/
def push_front (st : ListCommon α) (x : α) : ListCommon α :=
  if st.size = 0 then ⟨[x], some x, 1⟩
  else ⟨x :: st.chain, st.lastP, st.size + 1⟩

/-- `SinglyLinkedList::insert` (`src/list/singly_linked.rs`): error
`IndexOutOfBounds{index, len}` for `index > size` without mutating;
`index == size` delegates to `push` (= `push_back`), `index == 0` to
`push_front`; otherwise walk to the node before `index` and splice the new
node between it and its old successor. -/
def insert (st : ListCommon α) (index : Nat) (x : α) :
    Except DSError Unit × ListCommon α :=
  if index > st.size then (.error (.IndexOutOfBounds index st.size), st)
  else if index = st.size then (.ok (), push_back st x)
  else if index = 0 then (.ok (), push_front st x)
  else (.ok (), ⟨st.chain.take index ++ x :: st.chain.drop index, st.lastP, st.size + 1⟩)

/-- `SinglyLinkedList::from_slice`: push (= push_back) each slice element in
order onto a fresh list. -/
def from_slice (v : List α) : ListCommon α := v.foldl push_back new

/-- `SinglyLinkedList::sort`: return immediately when `len() <= 1`;
otherwise detach the chain, run `merge_sort` on it, and rebuild: the walk in
`rebuild_from_sorted_list` recounts `size` and sets `last` to the final node
of the returned chain. -/
def sort (le : α → α → Bool) (st : ListCommon α) : ListCommon α :=
  if st.size ≤ 1 then st
  else
    let sorted := merge_sort le st.chain
    ⟨sorted, sorted.getLast?, sorted.length⟩

end SinglyLinkedList

namespace OrderedList

variable {α : Type}

/-- The tail of `OrderedList::push`'s scan (`src/list/ordered.rs`), entered
once `prev` is non-null: insert the new node before the first node whose
payload is strictly greater (`lt x n`), relinking `prev.next`; the Boolean
records whether the loop broke with `done = true`.  When the scan falls off
the end (`done == false`), `prev.next = ptr` appends the node and `last` is
updated by the caller. -/
def scan_ins (lt : α → α → Bool) (x : α) : List α → List α × Bool
  | [] => ([x], false)
  | n :: t =>
    if lt x n then (x :: n :: t, true)
    else
      let r := scan_ins lt x t
      (n :: r.1, r.2)

/-- `OrderedList::push` (`src/list/ordered.rs`): on an empty list set both
pointers to the new node.  Otherwise scan from the head with `prev`
initially null.  On the very first comparison (`prev` null), a hit executes
only `(*ptr).next = next` — the `head` pointer is NOT updated, so the chain
reachable from `head` is unchanged and the new node is lost; `size` is
still incremented. -/
def push (lt : α → α → Bool) (st : ListCommon α) (x : α) : ListCommon α :=
  if st.size = 0 then ⟨[x], some x, 1⟩
  else
    match st.chain with
    | [] => ⟨st.chain, st.lastP, st.size + 1⟩ -- unreachable: size ≠ 0 with a null head
    | h :: t =>
      if lt x h then ⟨h :: t, st.lastP, st.size + 1⟩ -- head pointer not updated: node lost
      else
        let r := scan_ins lt x t
        ⟨h :: r.1, if r.2 then st.lastP else some x, st.size + 1⟩

end OrderedList

namespace SortedList

variable {α : Type}

/-- `SortedList::insert_in_middle` (`src/list/sorted.rs`): `prev` starts at
the head, `next` at its successor; splice the new node before the first
node with `x < next`.  If the scan falls off the end the function returns
without linking (cannot happen under `push`'s guards). -/
def insert_in_middle (lt : α → α → Bool) (x : α) : List α → List α
  | [] => [] -- loop exhausted without splicing: the new node is not linked
  | n :: t => if lt x n then x :: n :: t else n :: insert_in_middle lt x t

/-- `SortedList::push` (`src/list/sorted.rs`): empty list sets both
pointers; quick case 1: `payload <= head` prepends the node and updates
`head`; quick case 2: `last <= payload` appends after the `last` node and
updates `last`; otherwise `insert_in_middle` splices within the chain. -/
def push (le lt : α → α → Bool) (st : ListCommon α) (x : α) : ListCommon α :=
  if st.size = 0 then ⟨[x], some x, 1⟩
  else
    match st.chain with
    | [] => ⟨st.chain, st.lastP, st.size + 1⟩ -- unreachable: size ≠ 0 with a null head
    | h :: t =>
      if le x h then ⟨x :: h :: t, st.lastP, st.size + 1⟩
      else
        match st.lastP with
        | none => ⟨h :: t, st.lastP, st.size + 1⟩ -- unreachable: non-empty list with null last
        | some lastv =>
          if le lastv x then ⟨(h :: t) ++ [x], some x, st.size + 1⟩
          else ⟨h :: insert_in_middle lt x t, st.lastP, st.size + 1⟩

/-- `SortedList::find` (`src/list/sorted.rs`): enumerate the chain; return
the index on payload equality; break as soon as `payload > value`. -/
def find_aux [LinearOrder α] (v : α) : List α → Nat → Option Nat
  | [], _ => none
  | h :: t, i =>
    if h = v then some i
    else if v < h then none -- early exit: payload > value
    else find_aux v t (i + 1)

/-- `SortedList::find` applied from the head of the list. -/
def find [LinearOrder α] (st : ListCommon α) (v : α) : Option Nat :=
  find_aux v st.chain 0

end SortedList

/-- The mutating operations of the List Engine (§8 of the spec), used to
state the all-reachable-states invariant. -/
inductive Op (α : Type) where
  | pushBack (x : α)
  | pushFront (x : α)
  | popBack
  | popFront
  | insertAt (index : Nat) (x : α)
  | removeAt (index : Nat)
  | clearOp
  | sortOp

/-- Apply one mutating operation to a `SinglyLinkedList` state, discarding
returned values. -/
def applyOp {α : Type} [LinearOrder α] (st : ListCommon α) : Op α → ListCommon α
  | .pushBack x => ListCommon.push_back st x
  | .pushFront x => SinglyLinkedList.push_front st x
  | .popBack => (ListCommon.pop_back st).2
  | .popFront => (ListCommon.pop_front st).2
  | .insertAt i x => (SinglyLinkedList.insert st i x).2
  | .removeAt i => (ListCommon.remove st i).2
  | .clearOp => ListCommon.clear st
  | .sortOp => SinglyLinkedList.sort (fun a b => decide (a ≤ b)) st

/-- Run a sequence of mutating operations from the empty list. -/
def runOps {α : Type} [LinearOrder α] (ops : List (Op α)) : ListCommon α :=
  ops.foldl applyOp ListCommon.new


theorem split_steps_le {α : Type} (f : List α) (s : Nat) :
    split_steps f s ≤ s + f.length / 2 := by
  match f with
  | [] => simp [split_steps]
  | [a] => simp [split_steps]
  | a :: b :: rest =>
    have ih := split_steps_le rest (s + 1)
    simp only [split_steps, List.length_cons]
    omega
termination_by f.length

theorem split_list_fst_length {α : Type} (a b : α) (rest : List α) :
    (split_list (a :: b :: rest)).1.length < (a :: b :: rest).length := by
  have h := split_steps_le (b :: rest) 0
  simp only [split_list, List.tail_cons, List.length_take, List.length_cons] at *
  omega

theorem split_list_snd_length {α : Type} (a b : α) (rest : List α) :
    (split_list (a :: b :: rest)).2.length < (a :: b :: rest).length := by
  simp only [split_list, List.tail_cons, List.length_drop, List.length_cons]
  omega

theorem split_list_append {α : Type} (l : List α) :
    (split_list l).1 ++ (split_list l).2 = l := by
  simp [split_list]


theorem merge_perm {α : Type} (le : α → α → Bool) (as bs : List α) :
    (merge le as bs).Perm (as ++ bs) := by
  match as, bs with
  | [], bs => simp [merge]
  | a :: as, [] => simp [merge]
  | a :: as, b :: bs =>
    rw [merge]
    by_cases h : le a b
    · simpa [h] using (merge_perm le as (b :: bs)).cons a
    · simp only [h, if_false]
      refine ((merge_perm le (a :: as) bs).cons b).trans ?_
      simpa using (@List.perm_middle α b (a :: as) bs).symm
termination_by as.length + bs.length

theorem merge_sort_perm {α : Type} (le : α → α → Bool) (l : List α) :
    (merge_sort le l).Perm l := by
  match l with
  | [] => simp [merge_sort]
  | [a] => simp [merge_sort]
  | a :: b :: rest =>
    have h1 := merge_sort_perm le (split_list (a :: b :: rest)).1
    have h2 := merge_sort_perm le (split_list (a :: b :: rest)).2
    rw [merge_sort]
    refine (merge_perm le _ _).trans ?_
    refine (List.Perm.append h1 h2).trans ?_
    rw [split_list_append]
termination_by l.length
decreasing_by
  · exact split_list_fst_length a b rest
  · exact split_list_snd_length a b rest

theorem merge_pairwise {α : Type} (le : α → α → Bool)
    (htot : ∀ a b, le a b = true ∨ le b a = true)
    (htrans : ∀ a b c, le a b = true → le b c = true → le a c = true)
    (as bs : List α)
    (ha : List.Pairwise (fun a b => le a b = true) as)
    (hb : List.Pairwise (fun a b => le a b = true) bs) :
    List.Pairwise (fun a b => le a b = true) (merge le as bs) := by
  match as, bs with
  | [], bs => simpa [merge] using hb
  | a :: as, [] => simpa [merge] using ha
  | a :: as, b :: bs =>
    rw [List.pairwise_cons] at ha hb
    rw [merge]
    by_cases h : le a b
    · rw [if_pos h, List.pairwise_cons]
      refine ⟨fun y hy => ?_, merge_pairwise le htot htrans as (b :: bs) ha.2
        (List.pairwise_cons.mpr hb)⟩
      rcases List.mem_append.mp ((merge_perm le as (b :: bs)).mem_iff.mp hy) with hy | hy
      · exact ha.1 y hy
      · rcases List.mem_cons.mp hy with rfl | hy
        · exact h
        · exact htrans a b y h (hb.1 y hy)
    · have hba : le b a = true := (htot a b).resolve_left (by simpa using h)
      rw [if_neg h, List.pairwise_cons]
      refine ⟨fun y hy => ?_, merge_pairwise le htot htrans (a :: as) bs
        (List.pairwise_cons.mpr ha) hb.2⟩
      rcases List.mem_append.mp ((merge_perm le (a :: as) bs).mem_iff.mp hy) with hy | hy
      · rcases List.mem_cons.mp hy with rfl | hy
        · exact hba
        · exact htrans b a y hba (ha.1 y hy)
      · exact hb.1 y hy
termination_by as.length + bs.length

theorem merge_sort_pairwise {α : Type} (le : α → α → Bool)
    (htot : ∀ a b, le a b = true ∨ le b a = true)
    (htrans : ∀ a b c, le a b = true → le b c = true → le a c = true)
    (l : List α) :
    List.Pairwise (fun a b => le a b = true) (merge_sort le l) := by
  match l with
  | [] => simp [merge_sort]
  | [a] => simp [merge_sort]
  | a :: b :: rest =>
    rw [merge_sort]
    exact merge_pairwise le htot htrans _ _
      (merge_sort_pairwise le htot htrans (split_list (a :: b :: rest)).1)
      (merge_sort_pairwise le htot htrans (split_list (a :: b :: rest)).2)
termination_by l.length
decreasing_by
  · exact split_list_fst_length a b rest
  · exact split_list_snd_length a b rest

theorem merge_eq_append {α : Type} (le : α → α → Bool) (as bs : List α)
    (h : List.Pairwise (fun a b => le a b = true) (as ++ bs)) :
    merge le as bs = as ++ bs := by
  match as, bs with
  | [], bs => simp [merge]
  | a :: as, [] => simp [merge]
  | a :: as, b :: bs =>
    rw [List.cons_append, List.pairwise_cons] at h
    have hab : le a b = true := h.1 b (by simp)
    rw [merge, if_pos hab, List.cons_append]
    rw [merge_eq_append le as (b :: bs) h.2]
termination_by as.length + bs.length

theorem merge_sort_eq_of_pairwise {α : Type} (le : α → α → Bool) (l : List α)
    (h : List.Pairwise (fun a b => le a b = true) l) :
    merge_sort le l = l := by
  match l with
  | [] => simp [merge_sort]
  | [a] => simp [merge_sort]
  | a :: b :: rest =>
    have happ : (split_list (a :: b :: rest)).1 ++ (split_list (a :: b :: rest)).2
        = a :: b :: rest := split_list_append _
    have hp : List.Pairwise (fun a b => le a b = true)
        ((split_list (a :: b :: rest)).1 ++ (split_list (a :: b :: rest)).2) := by
      rw [happ]; exact h
    have h1 := (List.pairwise_append.mp hp).1
    have h2 := (List.pairwise_append.mp hp).2.1
    rw [merge_sort, merge_sort_eq_of_pairwise le _ h1, merge_sort_eq_of_pairwise le _ h2,
      merge_eq_append le _ _ hp, happ]
termination_by l.length
decreasing_by
  · exact split_list_fst_length a b rest
  · exact split_list_snd_length a b rest

theorem leK_total : ∀ a b, leK a b = true ∨ leK b a = true := by
  intro a b; simp [leK]; omega

theorem leK_trans : ∀ a b c : Int × Int,
    leK a b = true → leK b c = true → leK a c = true := by
  intro a b c; simp [leK]; omega

theorem merge_filter_key (as bs : List (Int × Int))
    (ha : List.Pairwise (fun a b => leK a b = true) as) (k : Int) :
    (merge leK as bs).filter (fun p => p.1 == k)
      = as.filter (fun p => p.1 == k) ++ bs.filter (fun p => p.1 == k) := by
  match as, bs with
  | [], bs => simp [merge]
  | a :: as, [] => simp [merge]
  | a :: as, b :: bs =>
    rw [List.pairwise_cons] at ha
    rw [merge]
    by_cases h : leK a b
    · rw [if_pos h, List.filter_cons, List.filter_cons,
        merge_filter_key as (b :: bs) ha.2 k]
      split <;> simp
    · rw [if_neg h, List.filter_cons,
        merge_filter_key (a :: as) bs (List.pairwise_cons.mpr ha) k]
      have hba : b.1 < a.1 := by
        simp only [leK, decide_eq_true_eq] at h; omega
      by_cases hk : (b.1 == k) = true
      · have hbk : b.1 = k := by simpa using hk
        have hnil : (a :: as).filter (fun p => p.1 == k) = [] := by
          rw [List.filter_eq_nil_iff]
          intro x hx
          rcases List.mem_cons.mp hx with rfl | hx
          · simp; omega
          · have := ha.1 x hx
            simp only [leK, decide_eq_true_eq] at this
            simp; omega
        simp [hk, hnil]
      · simp [hk]
termination_by as.length + bs.length

theorem merge_sort_filter_key (l : List (Int × Int)) (k : Int) :
    (merge_sort leK l).filter (fun p => p.1 == k) = l.filter (fun p => p.1 == k) := by
  match l with
  | [] => simp [merge_sort]
  | [a] => simp [merge_sort]
  | a :: b :: rest =>
    rw [merge_sort,
      merge_filter_key _ _ (merge_sort_pairwise leK leK_total leK_trans _) k,
      merge_sort_filter_key (split_list (a :: b :: rest)).1 k,
      merge_sort_filter_key (split_list (a :: b :: rest)).2 k,
      ← List.filter_append, split_list_append]
termination_by l.length
decreasing_by
  · exact split_list_fst_length a b rest
  · exact split_list_snd_length a b rest

section WFLemmas

variable {α : Type}

theorem getLast?_cons_ne (a : α) {l : List α} (h : l ≠ []) :
    (a :: l).getLast? = l.getLast? := by
  cases l with
  | nil => exact absurd rfl h
  | cons b t => exact List.getLast?_cons_cons

theorem getLast?_drop (l : List α) (i : Nat) (h : i < l.length) :
    (l.drop i).getLast? = l.getLast? := by
  induction l generalizing i with
  | nil => simp at h
  | cons a t ih =>
    cases i with
    | zero => simp
    | succ n =>
      have hn : n < t.length := by simpa using h
      have ht : t ≠ [] := by
        intro hc; rw [hc] at hn; simp at hn
      rw [List.drop_succ_cons, ih n hn, getLast?_cons_ne a ht]

theorem getLast?_eraseIdx (l : List α) (i : Nat) (h : i + 1 < l.length) :
    (l.eraseIdx i).getLast? = l.getLast? := by
  have hd : l.drop (i + 1) ≠ [] := by
    intro hc
    have := congrArg List.length hc
    simp at this
    omega
  rw [List.eraseIdx_eq_take_drop_succ, List.getLast?_append_of_ne_nil _ hd,
    getLast?_drop l (i + 1) h]

namespace ListCommon

theorem wf_new : WF (new : ListCommon α) := ⟨rfl, rfl⟩

theorem wf_push_back (st : ListCommon α) (h : WF st) (x : α) :
    WF (push_back st x) := by
  obtain ⟨h1, h2⟩ := h
  exact ⟨by simp [push_back, h1], by simp [push_back]⟩

theorem chain_ne_nil_of_size (st : ListCommon α) (h : WF st) (hz : st.size ≠ 0) :
    st.chain ≠ [] := by
  intro hc
  rw [h.1, hc] at hz
  simp at hz

theorem wf_pop_front (st : ListCommon α) (h : WF st) : WF (pop_front st).2 := by
  obtain ⟨chain, lastP, size⟩ := st
  obtain ⟨h1, h2⟩ := h
  simp only at h1 h2
  unfold pop_front
  by_cases hz : size = 0
  · rw [if_pos hz]; exact ⟨h1, h2⟩
  · rw [if_neg hz]
    cases chain with
    | nil => simp at h1; exact absurd h1 hz
    | cons x t =>
      simp only [List.length_cons] at h1
      constructor
      · show size - 1 = t.length
        omega
      · show (if size = 1 then none else lastP) = t.getLast?
        by_cases h1' : size = 1
        · have ht : t = [] := List.length_eq_zero.mp (by omega)
          simp [h1', ht]
        · have ht : t ≠ [] := by
            intro hc
            rw [hc] at h1
            simp at h1
            omega
          rw [if_neg h1', h2, getLast?_cons_ne x ht]

theorem wf_pop_back (st : ListCommon α) (h : WF st) : WF (pop_back st).2 := by
  obtain ⟨chain, lastP, size⟩ := st
  obtain ⟨h1, h2⟩ := h
  simp only at h1 h2
  unfold pop_back
  by_cases hz : size = 0
  · rw [if_pos hz]; exact ⟨h1, h2⟩
  · rw [if_neg hz]
    cases chain with
    | nil => simp at h1; exact absurd h1 hz
    | cons x t =>
      cases t with
      | nil =>
        simp only [List.length_cons, List.length_nil] at h1
        constructor
        · show size - 1 = ([] : List α).length
          simp
          omega
        · rfl
      | cons y u =>
        constructor
        · show size - 1 = ((x :: y :: u).dropLast).length
          simp only [List.length_dropLast, List.length_cons] at h1 ⊢
          omega
        · rfl

theorem wf_remove (st : ListCommon α) (h : WF st) (i : Nat) :
    WF (remove st i).2 := by
  unfold remove
  by_cases hb : i ≥ st.size
  · simpa [hb] using h
  · rw [if_neg hb]
    by_cases h0 : i = 0
    · have hw := wf_pop_front st h
      rw [if_pos h0]
      rcases hp : pop_front st with ⟨r, st'⟩
      rw [hp] at hw
      cases r <;> simpa using hw
    · rw [if_neg h0]
      by_cases hl : i + 1 = st.size
      · have hw := wf_pop_back st h
        rw [if_pos hl]
        rcases hp : pop_back st with ⟨r, st'⟩
        rw [hp] at hw
        cases r <;> simpa using hw
      · rw [if_neg hl]
        obtain ⟨h1, h2⟩ := h
        have hi : i < st.chain.length := by omega
        have hv : ∃ v, st.chain.get? i = some v := by
          rw [List.get?_eq_getElem?]
          exact ⟨st.chain[i], by simp [hi]⟩
        obtain ⟨v, hv⟩ := hv
        rw [hv]
        constructor
        · show st.size - 1 = (st.chain.eraseIdx i).length
          have := List.length_eraseIdx_add_one hi
          omega
        · show st.lastP = (st.chain.eraseIdx i).getLast?
          rw [getLast?_eraseIdx st.chain i (by omega)]
          exact h2

theorem wf_clearLoop (n : Nat) (st : ListCommon α) (h : WF st) :
    WF (clearLoop n st) := by
  induction n generalizing st with
  | zero => exact h
  | succ n ih =>
    unfold clearLoop
    by_cases hz : st.size = 0
    · simpa [hz] using h
    · rw [if_neg hz]
      exact ih _ (wf_pop_front st h)

theorem wf_clear (st : ListCommon α) (h : WF st) : WF (clear st) :=
  wf_clearLoop st.size st h

end ListCommon

namespace SinglyLinkedList

open ListCommon

theorem wf_push_front (st : ListCommon α) (h : WF st) (x : α) :
    WF (push_front st x) := by
  obtain ⟨h1, h2⟩ := h
  unfold push_front
  by_cases hz : st.size = 0
  · rw [if_pos hz]; exact ⟨rfl, rfl⟩
  · rw [if_neg hz]
    have hne : st.chain ≠ [] := by
      intro hc; rw [hc] at h1; simp at h1; exact hz h1
    constructor
    · show st.size + 1 = (x :: st.chain).length
      simp [h1]
    · show st.lastP = (x :: st.chain).getLast?
      rw [getLast?_cons_ne x hne]
      exact h2

theorem wf_insert (st : ListCommon α) (h : WF st) (i : Nat) (x : α) :
    WF (insert st i x).2 := by
  unfold insert
  by_cases hb : i > st.size
  · simpa [hb] using h
  · rw [if_neg hb]
    by_cases he : i = st.size
    · simpa [he] using wf_push_back st h x
    · rw [if_neg he]
      by_cases h0 : i = 0
      · simpa [h0] using wf_push_front st h x
      · rw [if_neg h0]
        obtain ⟨h1, h2⟩ := h
        have hi : i < st.chain.length := by omega
        have hdrop : st.chain.drop i ≠ [] := by
          intro hc
          have := congrArg List.length hc
          simp at this
          omega
        constructor
        · simp only [List.length_append, List.length_take, List.length_cons,
            List.length_drop]
          omega
        · simp only
          rw [List.getLast?_append_of_ne_nil _ (by simp),
            getLast?_cons_ne x hdrop, getLast?_drop st.chain i hi]
          exact h2

theorem wf_sort (le : α → α → Bool) (st : ListCommon α) (h : WF st) :
    WF (sort le st) := by
  unfold sort
  by_cases hz : st.size ≤ 1
  · simpa [hz] using h
  · rw [if_neg hz]
    exact ⟨rfl, rfl⟩

end SinglyLinkedList

theorem wf_applyOp [LinearOrder α] (st : ListCommon α) (h : ListCommon.WF st)
    (op : Op α) : ListCommon.WF (applyOp st op) := by
  cases op with
  | pushBack x => exact ListCommon.wf_push_back st h x
  | pushFront x => exact SinglyLinkedList.wf_push_front st h x
  | popBack => exact ListCommon.wf_pop_back st h
  | popFront => exact ListCommon.wf_pop_front st h
  | insertAt i x => exact SinglyLinkedList.wf_insert st h i x
  | removeAt i => exact ListCommon.wf_remove st h i
  | clearOp => exact ListCommon.wf_clear st h
  | sortOp => exact SinglyLinkedList.wf_sort _ st h

theorem wf_runOps [LinearOrder α] (ops : List (Op α)) :
    ListCommon.WF (runOps ops) := by
  suffices hgen : ∀ (st : ListCommon α), ListCommon.WF st →
      ListCommon.WF (ops.foldl applyOp st) from
    hgen ListCommon.new ListCommon.wf_new
  induction ops with
  | nil => intro st h; exact h
  | cons op rest ih =>
    intro st h
    exact ih _ (wf_applyOp st h op)

end WFLemmas

section FindLemmas

variable {α : Type}

theorem find_plain_eq_none [DecidableEq α] (v : α) (l : List α) (i : Nat)
    (h : ∀ x ∈ l, x ≠ v) : ListCommon.find_plain v l i = none := by
  induction l generalizing i with
  | nil => rfl
  | cons a t ih =>
    have ha : a ≠ v := h a (by simp)
    simp only [ListCommon.find_plain, if_neg ha]
    exact ih (i + 1) (fun x hx => h x (by simp [hx]))

theorem find_plain_none_iff [DecidableEq α] (v : α) (l : List α) (i : Nat) :
    ListCommon.find_plain v l i = none ↔ ∀ x ∈ l, x ≠ v := by
  constructor
  · intro h x hx hxv
    induction l generalizing i with
    | nil => simp at hx
    | cons a t ih =>
      rcases List.mem_cons.mp hx with rfl | hx'
      · simp [ListCommon.find_plain, hxv] at h
      · by_cases ha : a = v
        · simp [ListCommon.find_plain, ha] at h
        · simp only [ListCommon.find_plain, if_neg ha] at h
          exact ih (i + 1) h hx'
  · exact find_plain_eq_none v l i

theorem find_plain_some [DecidableEq α] (v : α) (l : List α) (i j : Nat)
    (h : ListCommon.find_plain v l i = some j) :
    i ≤ j ∧ l.get? (j - i) = some v ∧ ∀ m < j - i, l.get? m ≠ some v := by
  induction l generalizing i with
  | nil => simp [ListCommon.find_plain] at h
  | cons a t ih =>
    by_cases ha : a = v
    · simp only [ListCommon.find_plain, if_pos ha] at h
      obtain rfl : i = j := by simpa using h
      refine ⟨Nat.le_refl i, ?_, ?_⟩
      · simp [ha]
      · intro m hm; omega
    · simp only [ListCommon.find_plain, if_neg ha] at h
      obtain ⟨hle, hget, hmin⟩ := ih (i + 1) h
      have hji : 1 ≤ j - i := by omega
      refine ⟨by omega, ?_, ?_⟩
      · have : j - i = (j - (i + 1)) + 1 := by omega
        rw [this]
        simpa using hget
      · intro m hm
        cases m with
        | zero => simpa using ha
        | succ m' =>
          have : m' < j - (i + 1) := by omega
          simpa using hmin m' this

theorem find_aux_eq_find_plain [LinearOrder α] (v : α) (l : List α) (i : Nat)
    (h : l.Sorted (· ≤ ·)) :
    SortedList.find_aux v l i = ListCommon.find_plain v l i := by
  induction l generalizing i with
  | nil => rfl
  | cons a t ih =>
    rw [List.sorted_cons] at h
    by_cases ha : a = v
    · simp [SortedList.find_aux, ListCommon.find_plain, ha]
    · rw [SortedList.find_aux, ListCommon.find_plain, if_neg ha, if_neg ha]
      by_cases hv : v < a
      · rw [if_pos hv]
        refine (find_plain_eq_none v t (i + 1) ?_).symm
        intro x hx hxv
        have := h.1 x hx
        rw [hxv] at this
        exact absurd (lt_of_lt_of_le hv this) (lt_irrefl v)
      · rw [if_neg hv]
        exact ih (i + 1) h.2

end FindLemmas

section FromSliceLemmas

variable {α : Type}

theorem foldl_push_back (st : ListCommon α) (v : List α) :
    (v.foldl ListCommon.push_back st).chain = st.chain ++ v
    ∧ (v.foldl ListCommon.push_back st).size = st.size + v.length := by
  induction v generalizing st with
  | nil => simp
  | cons a t ih =>
    obtain ⟨ih1, ih2⟩ := ih (ListCommon.push_back st a)
    rw [List.foldl_cons]
    refine ⟨?_, ?_⟩
    · rw [ih1]; simp [ListCommon.push_back]
    · rw [ih2]; simp [ListCommon.push_back]; omega

theorem from_slice_chain (v : List α) : (SinglyLinkedList.from_slice v).chain = v := by
  have := (foldl_push_back ListCommon.new v).1
  simpa [SinglyLinkedList.from_slice, ListCommon.new] using this

theorem from_slice_size (v : List α) : (SinglyLinkedList.from_slice v).size = v.length := by
  have := (foldl_push_back ListCommon.new v).2
  simpa [SinglyLinkedList.from_slice, ListCommon.new] using this

end FromSliceLemmas

/-- C1: pushing `5,1,3,2,4` through `OrderedList::push` does NOT yield a
sorted five-element chain: every push whose payload is smaller than the
current head skips the head-pointer update, so after all five pushes the
chain reachable from `head` is just `[5]` while the size counter says `5`.
The claim (and the doc example of `src/list/ordered.rs`) demand
`to_vec() == [1,2,3,4,5]` with the size equal to the chain length; the code
violates both. -/
theorem c1_ordered_push_head_update_bug :
    ([5, 1, 3, 2, 4] : List Int).foldl
        (OrderedList.push (fun a b => decide (a < b))) ListCommon.new
      = ({ chain := [5], lastP := some 5, size := 5 } : ListCommon Int)
    ∧ (([5, 1, 3, 2, 4] : List Int).foldl
        (OrderedList.push (fun a b => decide (a < b))) ListCommon.new).to_vec
        ≠ [1, 2, 3, 4, 5]
    ∧ (([5, 1, 3, 2, 4] : List Int).foldl
        (OrderedList.push (fun a b => decide (a < b))) ListCommon.new).size
        ≠ (([5, 1, 3, 2, 4] : List Int).foldl
        (OrderedList.push (fun a b => decide (a < b))) ListCommon.new).chain.length := by
  refine ⟨?_, by decide, by decide⟩
  rfl

/-- C4: the merge-sort over the node chain is stable.  First conjunct: when
the two front nodes compare equal (`a.key = b.key`, so `a <= b` holds), the
merge step links the node from the left chain first.  Second conjunct: for
every input chain of key/tag pairs compared by key only, the elements of
any fixed key appear in the output of `merge_sort` in the same relative
order they had in the input. -/
theorem c4_merge_sort_stable :
    (∀ (a b : Int × Int) (as bs : List (Int × Int)), a.1 = b.1 →
      merge leK (a :: as) (b :: bs) = a :: merge leK as (b :: bs))
    ∧ ∀ (l : List (Int × Int)) (k : Int),
      (merge_sort leK l).filter (fun p => p.1 == k) = l.filter (fun p => p.1 == k) := by
  constructor
  · intro a b as bs hk
    rw [merge, if_pos (by simp [leK]; omega)]
  · exact merge_sort_filter_key

/-- Witness for C4 at concrete inputs: an equal-keyed tie takes the left
node, and sorting `[(5,1),(3,0),(5,2)]` keeps the key-5 elements in input
order. -/
theorem c4_merge_sort_stable_witness :
    merge leK [(5, 0)] [(5, 1), (4, 0)] = (5, 0) :: merge leK [] [(5, 1), (4, 0)]
    ∧ (merge_sort leK [(5, 1), (3, 0), (5, 2)]).filter (fun p => p.1 == 5)
        = [(5, 1), (3, 0), (5, 2)].filter (fun p => p.1 == 5) :=
  ⟨c4_merge_sort_stable.1 (5, 0) (5, 1) [] [(4, 0)] rfl,
   c4_merge_sort_stable.2 [(5, 1), (3, 0), (5, 2)] 5⟩

/-- C7: after any sequence of mutating operations starting from the empty
list, the engine invariants hold: the size counter equals the number of
elements reachable by iteration, `head()` is the first iterated element and
`last()` the final one, both are `None` exactly when the list is empty, and
`is_empty()` agrees with `len() == 0`. -/
theorem c7_engine_invariants {α : Type} [LinearOrder α] (ops : List (Op α)) :
    (runOps ops).len = (runOps ops).chain.length
    ∧ ListCommon.head (runOps ops) = (runOps ops).chain.head?
    ∧ ListCommon.last (runOps ops) = (runOps ops).chain.getLast?
    ∧ (ListCommon.head (runOps ops) = none ↔ (runOps ops).len = 0)
    ∧ (ListCommon.last (runOps ops) = none ↔ (runOps ops).len = 0)
    ∧ ListCommon.is_empty (runOps ops) = ((runOps ops).len == 0) := by
  obtain ⟨h1, h2⟩ := wf_runOps ops
  refine ⟨h1, rfl, h2, ?_, ?_, rfl⟩
  · rw [ListCommon.len, h1, ListCommon.head]
    constructor
    · intro h
      rw [List.head?_eq_none_iff] at h
      simp [h]
    · intro h
      rw [List.head?_eq_none_iff]
      exact List.length_eq_zero.mp h
  · rw [ListCommon.len, h1, ListCommon.last, h2]
    constructor
    · intro h
      rw [List.getLast?_eq_none_iff] at h
      simp [h]
    · intro h
      rw [List.getLast?_eq_none_iff]
      exact List.length_eq_zero.mp h

/-- C8: `to_vec()` materializes the chain in traversal order (the source
list state is untouched), and rebuilding with `from_slice` round-trips:
the rebuilt list has the same value sequence and the same length. -/
theorem c8_to_vec_from_slice_roundtrip {α : Type} (st : ListCommon α)
    (h : ListCommon.WF st) :
    (∀ v : List α, (SinglyLinkedList.from_slice v).to_vec = v)
    ∧ (SinglyLinkedList.from_slice st.to_vec).to_vec = st.to_vec
    ∧ (SinglyLinkedList.from_slice st.to_vec).len = st.len := by
  refine ⟨fun v => from_slice_chain v, from_slice_chain _, ?_⟩
  rw [ListCommon.len, ListCommon.len, from_slice_size, ListCommon.to_vec, h.1]

/-- Witness for C8 at a concrete well-formed three-element list. -/
theorem c8_to_vec_from_slice_roundtrip_witness :
    ListCommon.WF ({ chain := [2, 1, 5], lastP := some 5, size := 3 } : ListCommon Int)
    ∧ (SinglyLinkedList.from_slice
        ({ chain := [2, 1, 5], lastP := some 5, size := 3 } : ListCommon Int).to_vec).to_vec
        = ({ chain := [2, 1, 5], lastP := some 5, size := 3 } : ListCommon Int).to_vec :=
  ⟨⟨rfl, rfl⟩,
   (c8_to_vec_from_slice_roundtrip
     ({ chain := [2, 1, 5], lastP := some 5, size := 3 } : ListCommon Int)
     ⟨rfl, rfl⟩).2.1⟩

section PopSpecs

variable {α : Type}

theorem pop_front_spec (st : ListCommon α) (h : ListCommon.WF st)
    (hz : st.size ≠ 0) :
    ∃ c t, st.chain = c :: t ∧ ListCommon.pop_front st =
      (some c, ⟨t, if st.size = 1 then none else st.lastP, st.size - 1⟩) := by
  have hne : st.chain ≠ [] := ListCommon.chain_ne_nil_of_size st h hz
  obtain ⟨c, t, hch⟩ := List.exists_cons_of_ne_nil hne
  refine ⟨c, t, hch, ?_⟩
  unfold ListCommon.pop_front
  rw [if_neg hz, hch]

theorem pop_front_fst (st : ListCommon α) (h : ListCommon.WF st)
    (hz : st.size ≠ 0) : (ListCommon.pop_front st).1 = st.chain.head? := by
  obtain ⟨c, t, hch, hp⟩ := pop_front_spec st h hz
  rw [hp, hch]
  rfl

theorem pop_front_snd_size (st : ListCommon α) (h : ListCommon.WF st)
    (hz : st.size ≠ 0) : (ListCommon.pop_front st).2.size = st.size - 1 := by
  obtain ⟨c, t, hch, hp⟩ := pop_front_spec st h hz
  rw [hp]

theorem pop_back_spec (st : ListCommon α) (h : ListCommon.WF st)
    (hz : st.size ≠ 0) :
    (ListCommon.pop_back st).1 = st.chain.getLast?
    ∧ (ListCommon.pop_back st).2.size = st.size - 1
    ∧ (ListCommon.pop_back st).2.chain = st.chain.dropLast := by
  have hne : st.chain ≠ [] := ListCommon.chain_ne_nil_of_size st h hz
  unfold ListCommon.pop_back
  rw [if_neg hz]
  match hch : st.chain with
  | [] => exact absurd hch hne
  | [x] => exact ⟨by simp, rfl, rfl⟩
  | x :: y :: t => exact ⟨rfl, rfl, rfl⟩

end PopSpecs

/-- C2: `get(i)`, `get_mut(i)` and `remove(i)` fail with
`IndexOutOfBounds{index: i, len}` exactly when `i >= len()` (including on
the empty list) and succeed for every `i < len()`; `insert(i, x)` fails
with the same error exactly when `i > len()`; each failed call returns the
error without mutating the state. -/
theorem c2_bounds_errors {α : Type} (st : ListCommon α) (i : Nat)
    (h : ListCommon.WF st) :
    ((∃ v, st.get i = .ok v) ↔ i < st.len)
    ∧ (i ≥ st.len → st.get i = .error (.IndexOutOfBounds i st.len))
    ∧ ((∃ v, st.get_mut i = .ok v) ↔ i < st.len)
    ∧ (i ≥ st.len → st.get_mut i = .error (.IndexOutOfBounds i st.len))
    ∧ ((∃ v, (st.remove i).1 = .ok v) ↔ i < st.len)
    ∧ (i ≥ st.len → st.remove i = (.error (.IndexOutOfBounds i st.len), st))
    ∧ (∀ x : α, ((SinglyLinkedList.insert st i x).1 = .ok () ↔ i ≤ st.len)
        ∧ (i > st.len →
            SinglyLinkedList.insert st i x = (.error (.IndexOutOfBounds i st.len), st))) := by
  have h1 := h.1
  have hlen : st.len = st.size := rfl
  have hget : (∃ v, st.get i = Except.ok v) ↔ i < st.len := by
    rw [ListCommon.get, hlen, h1]
    by_cases hi : i < st.chain.length
    · rw [List.get?_eq_get hi]
      exact ⟨fun _ => hi, fun _ => ⟨st.chain.get ⟨i, hi⟩, rfl⟩⟩
    · rw [List.get?_eq_none.mpr (by omega)]
      exact ⟨fun ⟨v, hv⟩ => absurd hv (by simp), fun hlt => absurd hlt hi⟩
  have hgeterr : i ≥ st.len → st.get i = .error (.IndexOutOfBounds i st.len) := by
    intro hge
    rw [hlen] at hge ⊢
    rw [ListCommon.get, List.get?_eq_none.mpr (by omega)]
  have hremove_ok : (∃ v, (st.remove i).1 = Except.ok v) ↔ i < st.len := by
    rw [hlen]
    constructor
    · rintro ⟨v, hv⟩
      by_contra hge
      unfold ListCommon.remove at hv
      rw [if_pos (by omega)] at hv
      exact absurd hv (by simp)
    · intro hi
      unfold ListCommon.remove
      rw [if_neg (by omega)]
      by_cases h0 : i = 0
      · rw [if_pos h0]
        obtain ⟨c, t, hch, hp⟩ := pop_front_spec st h (by omega)
        rw [hp]
        exact ⟨c, rfl⟩
      · rw [if_neg h0]
        by_cases hl : i + 1 = st.size
        · rw [if_pos hl]
          obtain ⟨hb1, hb2, hb3⟩ := pop_back_spec st h (by omega)
          rcases hg : ListCommon.pop_back st with ⟨r, st'⟩
          rw [hg] at hb1
          have hne : st.chain ≠ [] := ListCommon.chain_ne_nil_of_size st h (by omega)
          obtain ⟨v, hv⟩ : ∃ v, st.chain.getLast? = some v := by
            cases hc : st.chain.getLast? with
            | none => exact absurd (List.getLast?_eq_none_iff.mp hc) hne
            | some v => exact ⟨v, rfl⟩
          rw [hv] at hb1
          simp only at hb1
          rw [hb1]
          exact ⟨v, rfl⟩
        · rw [if_neg hl]
          have hi' : i < st.chain.length := by omega
          rw [List.get?_eq_get hi']
          exact ⟨st.chain.get ⟨i, hi'⟩, rfl⟩
  have hremove_err : i ≥ st.len →
      st.remove i = (.error (.IndexOutOfBounds i st.len), st) := by
    intro hge
    rw [hlen] at hge ⊢
    unfold ListCommon.remove
    rw [if_pos hge]
  refine ⟨hget, hgeterr, hget, hgeterr, hremove_ok, hremove_err, fun x => ⟨?_, ?_⟩⟩
  · rw [hlen]
    constructor
    · intro hok
      by_contra hgt
      unfold SinglyLinkedList.insert at hok
      rw [if_pos (by omega)] at hok
      exact absurd hok (by simp)
    · intro hle
      unfold SinglyLinkedList.insert
      rw [if_neg (by omega)]
      by_cases he : i = st.size
      · rw [if_pos he]
      · rw [if_neg he]
        by_cases h0 : i = 0
        · rw [if_pos h0]
        · rw [if_neg h0]
  · intro hgt
    rw [hlen] at hgt ⊢
    unfold SinglyLinkedList.insert
    rw [if_pos hgt]

/-- Witness for C2 on a concrete two-element list: index 1 is in bounds for
`get`/`remove`, index 5 yields `IndexOutOfBounds{5, 2}` everywhere. -/
theorem c2_bounds_errors_witness :
    ListCommon.WF ({ chain := [7, 9], lastP := some 9, size := 2 } : ListCommon Int)
    ∧ (({ chain := [7, 9], lastP := some 9, size := 2 } : ListCommon Int).get 5
        = .error (.IndexOutOfBounds 5 2))
    ∧ ((∃ v, ({ chain := [7, 9], lastP := some 9, size := 2 } : ListCommon Int).get 1
        = .ok v) ↔ (1 : Nat) < 2) := by
  refine ⟨⟨rfl, rfl⟩, ?_, ?_⟩
  · exact (c2_bounds_errors ({ chain := [7, 9], lastP := some 9, size := 2 } :
      ListCommon Int) 5 ⟨rfl, rfl⟩).2.1 (by decide)
  · exact (c2_bounds_errors ({ chain := [7, 9], lastP := some 9, size := 2 } :
      ListCommon Int) 1 ⟨rfl, rfl⟩).1

/-- C5: `pop_front()` and `pop_back()` return `None` exactly on the empty
list and leave it unchanged then; on a non-empty list of length `n` they
return the first resp. last element, the length becomes `n - 1`, and when
`n == 1` both `head()` and `last()` are `None` afterwards. -/
theorem c5_pop_front_back {α : Type} (st : ListCommon α) (h : ListCommon.WF st) :
    ((ListCommon.pop_front st).1 = none ↔ st.len = 0)
    ∧ ((ListCommon.pop_back st).1 = none ↔ st.len = 0)
    ∧ (st.len = 0 →
        ListCommon.pop_front st = (none, st) ∧ ListCommon.pop_back st = (none, st))
    ∧ (st.len ≠ 0 →
        (ListCommon.pop_front st).1 = st.chain.head?
        ∧ (ListCommon.pop_back st).1 = st.chain.getLast?
        ∧ (ListCommon.pop_front st).2.len = st.len - 1
        ∧ (ListCommon.pop_back st).2.len = st.len - 1)
    ∧ (st.len = 1 →
        ListCommon.head (ListCommon.pop_front st).2 = none
        ∧ ListCommon.last (ListCommon.pop_front st).2 = none
        ∧ ListCommon.head (ListCommon.pop_back st).2 = none
        ∧ ListCommon.last (ListCommon.pop_back st).2 = none) := by
  have hlen : st.len = st.size := rfl
  have hempty : st.size = 0 →
      ListCommon.pop_front st = (none, st) ∧ ListCommon.pop_back st = (none, st) := by
    intro hz
    constructor
    · unfold ListCommon.pop_front; rw [if_pos hz]
    · unfold ListCommon.pop_back; rw [if_pos hz]
  refine ⟨?_, ?_, fun hz => hempty (hlen ▸ hz), fun hz => ?_, fun h1 => ?_⟩
  · rw [hlen]
    by_cases hz : st.size = 0
    · simp [(hempty hz).1, hz]
    · obtain ⟨c, t, hch, hp⟩ := pop_front_spec st h hz
      simp [hp, hz]
  · rw [hlen]
    by_cases hz : st.size = 0
    · simp [(hempty hz).2, hz]
    · have hne : st.chain ≠ [] := ListCommon.chain_ne_nil_of_size st h hz
      rw [(pop_back_spec st h hz).1]
      simp [hz, List.getLast?_eq_none_iff, hne]
  · rw [hlen] at hz ⊢
    exact ⟨pop_front_fst st h hz, (pop_back_spec st h hz).1,
      pop_front_snd_size st h hz, (pop_back_spec st h hz).2.1⟩
  · rw [hlen] at h1
    obtain ⟨c, t, hch, hp⟩ := pop_front_spec st h (by omega)
    have ht : t = [] := by
      have h1l := h.1
      rw [hch] at h1l
      simp only [List.length_cons] at h1l
      rw [h1] at h1l
      exact List.length_eq_zero.mp (by omega)
    have hbchain : (ListCommon.pop_back st).2.chain = [] := by
      rw [(pop_back_spec st h (by omega)).2.2, hch, ht]
      rfl
    have hwb := ListCommon.wf_pop_back st h
    refine ⟨?_, ?_, ?_, ?_⟩
    · rw [hp, ListCommon.head, ht]; rfl
    · rw [hp, ListCommon.last, if_pos h1]
    · rw [ListCommon.head, hbchain]; rfl
    · rw [ListCommon.last, hwb.2, hbchain]; rfl

/-- Witness for C5 at a concrete singleton list. -/
theorem c5_pop_front_back_witness :
    ListCommon.WF ({ chain := [4], lastP := some 4, size := 1 } : ListCommon Int)
    ∧ (ListCommon.pop_front
        ({ chain := [4], lastP := some 4, size := 1 } : ListCommon Int)).1 = [(4 : Int)].head?
    ∧ ListCommon.last (ListCommon.pop_back
        ({ chain := [4], lastP := some 4, size := 1 } : ListCommon Int)).2 = none := by
  refine ⟨⟨rfl, rfl⟩, ?_, ?_⟩
  · exact ((c5_pop_front_back ({ chain := [4], lastP := some 4, size := 1 } :
      ListCommon Int) ⟨rfl, rfl⟩).2.2.2.1 (by decide)).1
  · exact ((c5_pop_front_back ({ chain := [4], lastP := some 4, size := 1 } :
      ListCommon Int) ⟨rfl, rfl⟩).2.2.2.2 (by decide)).2.2.2

theorem get?_take_cons_drop {α : Type} (l : List α) (i : Nat) (x : α)
    (hi : i ≤ l.length) :
    (l.take i ++ x :: l.drop i).get? i = some x := by
  have hlen : (l.take i).length = i := by
    rw [List.length_take]
    omega
  rw [List.get?_append_right (by omega), hlen, Nat.sub_self]
  rfl

/-- C6: for `i <= len()`, `insert(i, x)` succeeds and places `x` at index
`i` with the other elements' relative order preserved; `i == len()` is
exactly back-insertion and `i == 0` exactly front-insertion; concretely,
`insert(1, 99)` into `[0,1,2]` yields `[0,99,1,2]` and `remove(1)` on that
result returns `99` leaving `[0,1,2]`. -/
theorem c6_insert_placement {α : Type} (st : ListCommon α) (i : Nat) (x : α)
    (h : ListCommon.WF st) (hi : i ≤ st.len) :
    (SinglyLinkedList.insert st i x).1 = .ok ()
    ∧ (SinglyLinkedList.insert st i x).2.chain
        = st.chain.take i ++ x :: st.chain.drop i
    ∧ (SinglyLinkedList.insert st i x).2.chain.get? i = some x
    ∧ (SinglyLinkedList.insert st i x).2.len = st.len + 1
    ∧ (i = st.len → (SinglyLinkedList.insert st i x).2 = ListCommon.push_back st x)
    ∧ (i = 0 → (SinglyLinkedList.insert st i x).2 = SinglyLinkedList.push_front st x)
    ∧ ((SinglyLinkedList.insert
          (SinglyLinkedList.from_slice ([0, 1, 2] : List Int)) 1 99).2.to_vec
          = [0, 99, 1, 2]
       ∧ (ListCommon.remove (SinglyLinkedList.insert
          (SinglyLinkedList.from_slice ([0, 1, 2] : List Int)) 1 99).2 1).1 = .ok 99
       ∧ (ListCommon.remove (SinglyLinkedList.insert
          (SinglyLinkedList.from_slice ([0, 1, 2] : List Int)) 1 99).2 1).2.to_vec
          = [0, 1, 2]) := by
  have h1 := h.1
  have hlen : st.len = st.size := rfl
  rw [hlen] at hi
  have hchain : (SinglyLinkedList.insert st i x).2.chain
      = st.chain.take i ++ x :: st.chain.drop i := by
    unfold SinglyLinkedList.insert
    rw [if_neg (by omega)]
    by_cases he : i = st.size
    · rw [if_pos he]
      have htake : st.chain.take i = st.chain := List.take_of_length_le (by omega)
      have hdrop : st.chain.drop i = [] := List.drop_eq_nil_of_le (by omega)
      rw [htake, hdrop]
      rfl
    · rw [if_neg he]
      by_cases h0 : i = 0
      · rw [if_pos h0]
        unfold SinglyLinkedList.push_front
        rw [if_neg (by omega), h0]
        rfl
      · rw [if_neg h0]
  have hok : (SinglyLinkedList.insert st i x).1 = .ok () := by
    unfold SinglyLinkedList.insert
    rw [if_neg (by omega)]
    by_cases he : i = st.size
    · rw [if_pos he]
    · rw [if_neg he]
      by_cases h0 : i = 0
      · rw [if_pos h0]
      · rw [if_neg h0]
  have hsize : (SinglyLinkedList.insert st i x).2.len = st.len + 1 := by
    rw [hlen]
    unfold SinglyLinkedList.insert
    rw [if_neg (by omega)]
    by_cases he : i = st.size
    · rw [if_pos he]; rfl
    · rw [if_neg he]
      by_cases h0 : i = 0
      · rw [if_pos h0]
        unfold SinglyLinkedList.push_front
        rw [if_neg (by omega)]
        rfl
      · rw [if_neg h0]
        rfl
  refine ⟨hok, hchain, ?_, hsize, ?_, ?_, by rfl, by rfl, by rfl⟩
  · rw [hchain]
    exact get?_take_cons_drop st.chain i x (by omega)
  · intro he
    unfold SinglyLinkedList.insert
    rw [if_neg (by omega), if_pos (hlen ▸ he)]
  · intro h0
    unfold SinglyLinkedList.insert
    by_cases he : i = st.size
    · rw [if_neg (by omega), if_pos he]
      unfold SinglyLinkedList.push_front ListCommon.push_back
      rw [if_pos (by omega)]
      have hemp : st.chain = [] := List.length_eq_zero.mp (by omega)
      have hsz : st.size = 0 := by omega
      rw [hemp, hsz]
      simp
    · rw [if_neg (by omega), if_neg he, if_pos h0]

/-- Witness for C6: inserting 99 at index 1 of the well-formed list
`[0,1,2]` succeeds. -/
theorem c6_insert_placement_witness :
    ListCommon.WF ({ chain := [0, 1, 2], lastP := some 2, size := 3 } : ListCommon Int)
    ∧ (1 : Nat) ≤ ({ chain := [0, 1, 2], lastP := some 2, size := 3 } : ListCommon Int).len
    ∧ (SinglyLinkedList.insert
        ({ chain := [0, 1, 2], lastP := some 2, size := 3 } : ListCommon Int) 1 99).2.chain
        = [0, 99, 1, 2] := by
  refine ⟨⟨rfl, rfl⟩, by decide, ?_⟩
  have := (c6_insert_placement ({ chain := [0, 1, 2], lastP := some 2, size := 3 } :
    ListCommon Int) 1 99 ⟨rfl, rfl⟩ (by decide)).2.1
  rw [this]
  rfl

theorem pairwise_decide_iff {α : Type} [LinearOrder α] (l : List α) :
    List.Pairwise (fun a b => (fun a b : α => decide (a ≤ b)) a b = true) l
      ↔ l.Sorted (· ≤ ·) := by
  constructor
  · intro h
    exact h.imp (by simp)
  · intro h
    exact h.imp (by simp)

/-- C3: `sort()` produces a non-decreasing permutation of the input values;
on an already-sorted (hence also empty or singleton) chain the value
sequence is unchanged; afterwards `len()` equals the pre-call length,
`head()` is the first element of iteration and `last()` the final one. -/
theorem c3_sort_correct {α : Type} [LinearOrder α] (st : ListCommon α)
    (h : ListCommon.WF st) :
    (SinglyLinkedList.sort (fun a b => decide (a ≤ b)) st).chain.Sorted (· ≤ ·)
    ∧ (SinglyLinkedList.sort (fun a b => decide (a ≤ b)) st).chain.Perm st.chain
    ∧ (st.chain.Sorted (· ≤ ·) →
        (SinglyLinkedList.sort (fun a b => decide (a ≤ b)) st).chain = st.chain)
    ∧ (SinglyLinkedList.sort (fun a b => decide (a ≤ b)) st).len = st.len
    ∧ ListCommon.head (SinglyLinkedList.sort (fun a b => decide (a ≤ b)) st)
        = (SinglyLinkedList.sort (fun a b => decide (a ≤ b)) st).chain.head?
    ∧ ListCommon.last (SinglyLinkedList.sort (fun a b => decide (a ≤ b)) st)
        = (SinglyLinkedList.sort (fun a b => decide (a ≤ b)) st).chain.getLast? := by
  have hdtot : ∀ a b : α, (fun a b : α => decide (a ≤ b)) a b = true
      ∨ (fun a b : α => decide (a ≤ b)) b a = true := by
    intro a b; simpa using le_total a b
  have hdtrans : ∀ a b c : α, (fun a b : α => decide (a ≤ b)) a b = true →
      (fun a b : α => decide (a ≤ b)) b c = true →
      (fun a b : α => decide (a ≤ b)) a c = true := by
    intro a b c
    simp only [decide_eq_true_eq]
    exact le_trans
  unfold SinglyLinkedList.sort
  by_cases hz : st.size ≤ 1
  · rw [if_pos hz]
    have hsorted : st.chain.Sorted (· ≤ ·) := by
      have hlen : st.chain.length ≤ 1 := by rw [← h.1]; exact hz
      cases hc : st.chain with
      | nil => exact List.sorted_nil
      | cons a t =>
        cases t with
        | nil => exact List.sorted_singleton a
        | cons b u => rw [hc] at hlen; simp at hlen
    exact ⟨hsorted, List.Perm.refl _, fun _ => rfl, rfl, rfl, h.2⟩
  · rw [if_neg hz]
    refine ⟨?_, ?_, ?_, ?_, rfl, rfl⟩
    · exact (pairwise_decide_iff _).mp
        (merge_sort_pairwise _ hdtot hdtrans st.chain)
    · exact merge_sort_perm _ st.chain
    · intro hs
      exact merge_sort_eq_of_pairwise _ st.chain ((pairwise_decide_iff _).mpr hs)
    · show (merge_sort (fun a b : α => decide (a ≤ b)) st.chain).length = st.len
      rw [(merge_sort_perm _ st.chain).length_eq]
      exact h.1.symm

/-- Witness for C3 at a concrete well-formed unsorted list. -/
theorem c3_sort_correct_witness :
    ListCommon.WF ({ chain := [5, 4, 3, 2, 1], lastP := some 1, size := 5 } : ListCommon Int)
    ∧ (SinglyLinkedList.sort (fun a b : Int => decide (a ≤ b))
        ({ chain := [5, 4, 3, 2, 1], lastP := some 1, size := 5 } : ListCommon Int)).chain.Sorted
        (· ≤ ·) :=
  ⟨⟨rfl, rfl⟩,
   (c3_sort_correct ({ chain := [5, 4, 3, 2, 1], lastP := some 1, size := 5 } :
     ListCommon Int) ⟨rfl, rfl⟩).1⟩

/-- C9: on a `SortedList` whose chain is non-decreasing under the order
consistent with equality (a linear order), `find(value)` with its early
exit returns exactly the result of the plain linear scan of
`src/list/api.rs`: the index of the first element equal to `value`, or
`None` when no element equals it. -/
theorem c9_sorted_find_eq_linear {α : Type} [LinearOrder α]
    (st : ListCommon α) (v : α) (h : st.chain.Sorted (· ≤ ·)) :
    SortedList.find st v = ListCommon.find_plain v st.chain 0
    ∧ (ListCommon.find_plain v st.chain 0 = none ↔ ∀ x ∈ st.chain, x ≠ v)
    ∧ (∀ i, ListCommon.find_plain v st.chain 0 = some i →
        st.chain.get? i = some v ∧ ∀ j < i, st.chain.get? j ≠ some v) := by
  refine ⟨find_aux_eq_find_plain v st.chain 0 h,
    find_plain_none_iff v st.chain 0, ?_⟩
  intro i hi
  obtain ⟨_, hg, hm⟩ := find_plain_some v st.chain 0 i hi
  rw [Nat.sub_zero] at hg
  refine ⟨hg, fun j hj => ?_⟩
  exact hm j (by omega)

/-- Witness for C9 on the sorted chain `[1,3,5]` searching for 3 and for 4. -/
theorem c9_sorted_find_eq_linear_witness :
    SortedList.find ({ chain := [1, 3, 5], lastP := some 5, size := 3 } : ListCommon Int) 3
      = ListCommon.find_plain 3 [1, 3, 5] 0
    ∧ SortedList.find ({ chain := [1, 3, 5], lastP := some 5, size := 3 } : ListCommon Int) 4
      = ListCommon.find_plain 4 [1, 3, 5] 0 :=
  ⟨(c9_sorted_find_eq_linear ({ chain := [1, 3, 5], lastP := some 5, size := 3 } :
      ListCommon Int) 3 (by decide)).1,
   (c9_sorted_find_eq_linear ({ chain := [1, 3, 5], lastP := some 5, size := 3 } :
      ListCommon Int) 4 (by decide)).1⟩

/-- C10 counterexample: pushing `(5,1)` (key 5) into the singleton
`SortedList` holding `(5,0)` — whose tail IS `(5,0)`, equal-keyed to the
pushed payload — takes the head fast path and prepends, producing
`[(5,1),(5,0)]`, not the `[(5,0),(5,1)]` that "equal to the current tail
inserts after the existing equal element" would demand. -/
theorem c10_counterexample :
    ListCommon.last (SortedList.push leK ltK ListCommon.new ((5, 0) : Int × Int))
      = some (5, 0)
    ∧ ((5, 1) : Int × Int).1 = ((5, 0) : Int × Int).1
    ∧ (SortedList.push leK ltK
        (SortedList.push leK ltK ListCommon.new ((5, 0) : Int × Int)) (5, 1)).chain
      = [(5, 1), (5, 0)]
    ∧ (SortedList.push leK ltK
        (SortedList.push leK ltK ListCommon.new ((5, 0) : Int × Int)) (5, 1)).chain
      ≠ [(5, 0), (5, 1)] := by
  exact ⟨rfl, rfl, rfl, by decide⟩

/-- C10 (amended): in the fast-path `SortedList::push`, a payload whose key
equals the current head's key is inserted before it (the new element
becomes the new head); a payload whose key equals the current tail's key
AND is strictly greater than the head's key is inserted after the existing
equal element; and the linear-scan `OrderedList::push` keeps the existing
head in front on a head tie (after-equals tie policy). -/
theorem c10_sorted_push_tie_policy (st : ListCommon (Int × Int))
    (x hd : Int × Int) (t : List (Int × Int))
    (hch : st.chain = hd :: t) (hsz : st.size ≠ 0) :
    (x.1 = hd.1 → (SortedList.push leK ltK st x).chain = x :: st.chain)
    ∧ (∀ lastv, st.lastP = some lastv → hd.1 < x.1 → lastv.1 = x.1 →
        (SortedList.push leK ltK st x).chain = st.chain ++ [x])
    ∧ (x.1 = hd.1 → (OrderedList.push ltK st x).chain.head? = some hd) := by
  obtain ⟨chain, lastP, size⟩ := st
  simp only at hch hsz
  subst hch
  refine ⟨?_, ?_, ?_⟩
  · intro hk
    have hle : leK x hd = true := by simp [leK]; omega
    simp [SortedList.push, hsz, hle]
  · intro lastv hlast hhd hlastk
    simp only at hlast
    have hnle : leK x hd = false := by simp [leK]; omega
    have hle2 : leK lastv x = true := by simp [leK]; omega
    simp [SortedList.push, hsz, hnle, hle2, hlast]
  · intro hk
    have hlt : ltK x hd = false := by simp [ltK]; omega
    simp [OrderedList.push, hsz, hlt]

/-- Witness for C10 (amended) at the concrete two-element sorted list
`[(3,0),(5,0)]`: a head-tied push of `(3,1)` prepends; a tail-tied push of
`(5,1)` (key strictly above the head) appends. -/
theorem c10_sorted_push_tie_policy_witness :
    (SortedList.push leK ltK
      ({ chain := [(3, 0), (5, 0)], lastP := some (5, 0), size := 2 } :
        ListCommon (Int × Int)) (3, 1)).chain = [(3, 1), (3, 0), (5, 0)]
    ∧ (SortedList.push leK ltK
      ({ chain := [(3, 0), (5, 0)], lastP := some (5, 0), size := 2 } :
        ListCommon (Int × Int)) (5, 1)).chain = [(3, 0), (5, 0), (5, 1)] := by
  constructor
  · have := (c10_sorted_push_tie_policy
      ({ chain := [(3, 0), (5, 0)], lastP := some (5, 0), size := 2 } :
        ListCommon (Int × Int)) (3, 1) (3, 0) [(5, 0)] rfl (by decide)).1 rfl
    rw [this]
  · have := (c10_sorted_push_tie_policy
      ({ chain := [(3, 0), (5, 0)], lastP := some (5, 0), size := 2 } :
        ListCommon (Int × Int)) (5, 1) (3, 0) [(5, 0)] rfl (by decide)).2.1
      (5, 0) rfl (by decide) rfl
    rw [this]
    rfl

end PlainDS
